import Mathlib

/-!
# Verification of the Poincaré ball manifold (`pymanopt/manifolds/hyperbolic.py`)

This file embeds the numerical operations of the `PoincareBall` class in Lean
over the real numbers and proves the properties the specification claims of
them.

All array operations of the source act column-by-column (every reduction is
`np.sum(..., axis=0)` / `np.linalg.norm(..., axis=0)` and every other
operation is elementwise), so a single column — a vector in `ℝ^k`, modelled as
`Fin k → ℝ` — is embedded exactly as the source computes it, and the one
genuinely product-level operation (`dist`, which aggregates the per-column
distances) is modelled on families of columns.

Divisions: the guarded division in `exp` (`np.divide(..., out=zeros,
where=norm != 0)`) is embedded as the corresponding conditional.  The division
closing `log` is *unguarded* in the source: when `norm_W = 0` numpy performs
`0/0` and produces NaN, so `log` is embedded as an `Option`-valued function
that returns `none` exactly in that case and the exact real value otherwise.
The division inside `mobius_addition` is embedded with total real division;
its denominator is proved nonvanishing on the open unit ball, where every
claim about it lives, so the embedding and the source agree there.
-/

namespace PoincareBall

noncomputable section

/-- `np.sum(x * y, axis=0)` on one column: the Euclidean dot product. -/
def dotc {k : ℕ} (x y : Fin k → ℝ) : ℝ := ∑ i, x i * y i

/-- `np.sum(x * x, axis=0)` on one column: the squared Euclidean norm,
as the source computes it (`norms2_point_a`, `norm_point_a`, ...). -/
def sumSq {k : ℕ} (x : Fin k → ℝ) : ℝ := ∑ i, x i * x i

/-- `np.linalg.norm(x, axis=0)` on one column: the Euclidean norm. -/
def nrm {k : ℕ} (x : Fin k → ℝ) : ℝ := Real.sqrt (sumSq x)

/-- `np.arctanh`, as numpy computes it for `|x| < 1`:
`arctanh x = log((1 + x)/(1 - x)) / 2`. -/
def arctanh (x : ℝ) : ℝ := Real.log ((1 + x) / (1 - x)) / 2

/-- `np.arccosh`, as numpy computes it for `x ≥ 1`:
`arccosh x = log(x + sqrt(x² - 1))`. -/
def arccosh (x : ℝ) : ℝ := Real.log (x + Real.sqrt (x ^ 2 - 1))

/-- `PoincareBall.zero_vector`: `np.zeros_like(point)`. -/
def zero_vector {k : ℕ} (_point : Fin k → ℝ) : Fin k → ℝ := fun _ => 0

/-- `PoincareBall.conformal_factor` on one column:
`2 / (1 - np.sum(point * point, axis=0))`. -/
def conformal_factor {k : ℕ} (point : Fin k → ℝ) : ℝ := 2 / (1 - sumSq point)

/-- `PoincareBall.mobius_addition` on one column:
`(a * (1 + 2⟨a,b⟩ + ‖b‖²) + b * (1 - ‖a‖²)) / (1 + 2⟨a,b⟩ + ‖a‖²‖b‖²)`. -/
def mobius_addition {k : ℕ} (point_a point_b : Fin k → ℝ) : Fin k → ℝ :=
fun i =>
(point_a i * (1 + 2 * dotc point_a point_b + sumSq point_b)
  + point_b i * (1 - sumSq point_a))
/ (1 + 2 * dotc point_a point_b + sumSq point_a * sumSq point_b)

/-- `PoincareBall.exp` on one column.  The displacement
`W = tangent_vector * np.divide(tanh(‖v‖ / (1 - ‖x‖²)), ‖v‖, out=zeros,
where=‖v‖ != 0)` embeds the source's guarded division: when the tangent
vector has norm `0` the quotient is taken to be `0`. -/
def exp {k : ℕ} (point tangent_vector : Fin k → ℝ) : Fin k → ℝ :=
mobius_addition point fun i =>
if nrm tangent_vector = 0 then 0
else tangent_vector i
  * (Real.tanh (nrm tangent_vector / (1 - sumSq point)) / nrm tangent_vector)

/-- `PoincareBall.retraction`: the source aliases it to `exp`
(`retraction = exp` at class level). -/
def retraction {k : ℕ} (point tangent_vector : Fin k → ℝ) : Fin k → ℝ :=
exp point tangent_vector

/-- `PoincareBall.log` on one column: `W = mobius_addition(-a, b)` followed by
`(1 - ‖a‖²) * arctanh(‖W‖) * W / ‖W‖`.  The closing division is unguarded in
the source; when `‖W‖ = 0` numpy computes `0/0` and the result is a NaN array,
embedded here as `none`.  Otherwise the exact real value is returned. -/
def log {k : ℕ} (point_a point_b : Fin k → ℝ) : Option (Fin k → ℝ) :=
if nrm (mobius_addition (fun i => -point_a i) point_b) = 0 then none
else some fun i =>
(1 - sumSq point_a)
  * arctanh (nrm (mobius_addition (fun j => -point_a j) point_b))
  * mobius_addition (fun j => -point_a j) point_b i
  / nrm (mobius_addition (fun j => -point_a j) point_b)

/-- `PoincareBall.euclidean_to_riemannian_gradient` on one column:
`euclidean_gradient * (1 / conformal_factor(point) ** 2)`. -/
def euclidean_to_riemannian_gradient {k : ℕ} (point euclidean_gradient : Fin k → ℝ) :
Fin k → ℝ :=
fun i => euclidean_gradient i * (1 / conformal_factor point ^ 2)

/-- The per-column distance computed inside `PoincareBall.dist`
(`columns_dist` in the source):
`arccosh(1 + 2‖a - b‖² / ((1 - ‖a‖²)(1 - ‖b‖²)))`. -/
def columns_dist {k : ℕ} (point_a point_b : Fin k → ℝ) : ℝ :=
arccosh (1 + 2 * sumSq (fun i => point_a i - point_b i)
  / ((1 - sumSq point_a) * (1 - sumSq point_b)))

/-- `PoincareBall.dist` on the whole product of `n` balls:
`sqrt(Σ_columns columns_dist²)`.  A point of the product is the family of its
`n` columns. -/
def dist {k n : ℕ} (point_a point_b : Fin n → Fin k → ℝ) : ℝ :=
Real.sqrt (∑ j, columns_dist (point_a j) (point_b j) ^ 2)

/-- The immutable configuration produced by a successful
`PoincareBall.__init__(k, n)`. -/
structure Config where
k : ℤ
n : ℤ
name : String
dimension : ℤ
deriving DecidableEq, Repr

/-- `PoincareBall.__init__`: validates `k ≥ 1` then `n ≥ 1`, raising
`ValueError` (modelled as `Except.error` carrying the exact message) when a
check fails; otherwise builds the instance with its display name and
`dimension = k * n`.  A raise in Python's `__init__` aborts construction, so
the error case yields no instance at all. -/
def make (k n : ℤ) : Except String Config :=
if k < 1 then Except.error ("Need k >= 1. Value given was k = " ++ toString k)
else if n < 1 then Except.error ("Need n >= 1. Value given was n = " ++ toString n)
else Except.ok
{ k := k
  n := n
  name :=
    if n == 1 then "Poincare ball B(" ++ toString k ++ ")"
    else "Poincare ball B(" ++ toString k ++ ")^" ++ toString n
  dimension := k * n }

end

/-! ## Basic facts about the column primitives -/

theorem dotc_comm {k : ℕ} (x y : Fin k → ℝ) : dotc x y = dotc y x :=
Finset.sum_congr rfl fun i _ => mul_comm (x i) (y i)

theorem sumSq_eq_dotc {k : ℕ} (x : Fin k → ℝ) : sumSq x = dotc x x := rfl

theorem sumSq_nonneg {k : ℕ} (x : Fin k → ℝ) : 0 ≤ sumSq x :=
Finset.sum_nonneg fun i _ => mul_self_nonneg (x i)

theorem sumSq_eq_zero_iff {k : ℕ} (x : Fin k → ℝ) :
sumSq x = 0 ↔ ∀ i, x i = 0 := by
unfold sumSq
rw [Finset.sum_eq_zero_iff_of_nonneg fun i _ => mul_self_nonneg (x i)]
simp [mul_self_eq_zero]

theorem nrm_nonneg {k : ℕ} (x : Fin k → ℝ) : 0 ≤ nrm x := Real.sqrt_nonneg _

theorem nrm_eq_zero_iff {k : ℕ} (x : Fin k → ℝ) : nrm x = 0 ↔ sumSq x = 0 := by
unfold nrm
rw [Real.sqrt_eq_zero (sumSq_nonneg x)]

theorem nrm_lt_one_iff {k : ℕ} (x : Fin k → ℝ) : nrm x < 1 ↔ sumSq x < 1 := by
unfold nrm
rw [Real.sqrt_lt' one_pos, one_pow]

theorem sumSq_neg {k : ℕ} (x : Fin k → ℝ) :
sumSq (fun i => -x i) = sumSq x :=
Finset.sum_congr rfl fun i _ => by ring

theorem dotc_neg_left {k : ℕ} (x y : Fin k → ℝ) :
dotc (fun i => -x i) y = -dotc x y := by
unfold dotc
rw [← Finset.sum_neg_distrib]
exact Finset.sum_congr rfl fun i _ => by ring

theorem dotc_sq_le {k : ℕ} (a b : Fin k → ℝ) :
dotc a b ^ 2 ≤ sumSq a * sumSq b := by
have h := Finset.sum_mul_sq_le_sq_mul_sq Finset.univ a b
have ha : ∑ i, a i ^ 2 = sumSq a := Finset.sum_congr rfl fun i _ => pow_two (a i)
have hb : ∑ i, b i ^ 2 = sumSq b := Finset.sum_congr rfl fun i _ => pow_two (b i)
rw [ha, hb] at h
exact h

/-! ## Möbius addition: denominator, closure, left cancellation -/

theorem mobius_denom_pos {k : ℕ} (a b : Fin k → ℝ)
(ha : sumSq a < 1) (hb : sumSq b < 1) :
0 < 1 + 2 * dotc a b + sumSq a * sumSq b := by
have hcs := dotc_sq_le a b
have h0a := sumSq_nonneg a
have h0b := sumSq_nonneg b
have hB : 0 ≤ sumSq a + sumSq b + 2 * dotc a b := by
  rcases le_or_lt 0 (dotc a b) with h | h
  · linarith
  · nlinarith [sq_nonneg (sumSq a - sumSq b)]
nlinarith [mul_pos (by linarith : (0:ℝ) < 1 - sumSq a) (by linarith : (0:ℝ) < 1 - sumSq b)]

theorem dotc_comb {k : ℕ} (x u v : Fin k → ℝ) (c1 c2 c3 : ℝ) :
dotc x (fun i => (u i * c1 + v i * c2) / c3)
  = (dotc x u * c1 + dotc x v * c2) / c3 := by
unfold dotc
calc ∑ i, x i * ((u i * c1 + v i * c2) / c3)
    = ∑ i, (x i * u i * c1 + x i * v i * c2) * c3⁻¹ :=
      Finset.sum_congr rfl fun i _ => by ring
  _ = (∑ i, (x i * u i * c1 + x i * v i * c2)) * c3⁻¹ := by
      rw [Finset.sum_mul]
  _ = ((∑ i, x i * u i * c1) + ∑ i, x i * v i * c2) * c3⁻¹ := by
      rw [Finset.sum_add_distrib]
  _ = ((∑ i, x i * u i) * c1 + (∑ i, x i * v i) * c2) * c3⁻¹ := by
      rw [Finset.sum_mul, Finset.sum_mul]
  _ = ((∑ i, x i * u i) * c1 + (∑ i, x i * v i) * c2) / c3 := by
      rw [div_eq_mul_inv]

theorem dotc_mobius {k : ℕ} (x a b : Fin k → ℝ) :
dotc x (mobius_addition a b)
  = (dotc x a * (1 + 2 * dotc a b + sumSq b) + dotc x b * (1 - sumSq a))
    / (1 + 2 * dotc a b + sumSq a * sumSq b) := by
unfold mobius_addition
exact dotc_comb x a b _ _ _

theorem one_sub_sumSq_mobius {k : ℕ} (a b : Fin k → ℝ)
(hd : 1 + 2 * dotc a b + sumSq a * sumSq b ≠ 0) :
1 - sumSq (mobius_addition a b)
  = (1 - sumSq a) * (1 - sumSq b) / (1 + 2 * dotc a b + sumSq a * sumSq b) := by
have h1 : dotc (mobius_addition a b) a
    = (sumSq a * (1 + 2 * dotc a b + sumSq b) + dotc a b * (1 - sumSq a))
      / (1 + 2 * dotc a b + sumSq a * sumSq b) := by
  rw [dotc_comm]
  exact dotc_mobius a a b
have h2 : dotc (mobius_addition a b) b
    = (dotc a b * (1 + 2 * dotc a b + sumSq b) + sumSq b * (1 - sumSq a))
      / (1 + 2 * dotc a b + sumSq a * sumSq b) := by
  rw [dotc_comm]
  have h := dotc_mobius b a b
  rwa [dotc_comm b a] at h
rw [sumSq_eq_dotc, dotc_mobius (mobius_addition a b) a b, h1, h2]
set s := dotc a b
set p := sumSq a
set q := sumSq b
field_simp
ring

theorem sumSq_mobius_lt_one {k : ℕ} (a b : Fin k → ℝ)
(ha : sumSq a < 1) (hb : sumSq b < 1) :
sumSq (mobius_addition a b) < 1 := by
have hdpos := mobius_denom_pos a b ha hb
have h := one_sub_sumSq_mobius a b (ne_of_gt hdpos)
have hpos : 0 < (1 - sumSq a) * (1 - sumSq b)
    / (1 + 2 * dotc a b + sumSq a * sumSq b) :=
  div_pos (mul_pos (by linarith) (by linarith)) hdpos
linarith

theorem mobius_left_cancel {k : ℕ} (a b : Fin k → ℝ)
(ha : sumSq a < 1) (hb : sumSq b < 1) :
mobius_addition (fun i => -a i) (mobius_addition a b) = b := by
have hdpos := mobius_denom_pos a b ha hb
have hd : 1 + 2 * dotc a b + sumSq a * sumSq b ≠ 0 := ne_of_gt hdpos
have hna : sumSq (fun i => -a i) = sumSq a := sumSq_neg a
have hdot : dotc (fun i => -a i) (mobius_addition a b)
    = -((sumSq a * (1 + 2 * dotc a b + sumSq b) + dotc a b * (1 - sumSq a))
      / (1 + 2 * dotc a b + sumSq a * sumSq b)) := by
  rw [dotc_neg_left]
  congr 1
  exact dotc_mobius a a b
have hsq : sumSq (mobius_addition a b)
    = 1 - (1 - sumSq a) * (1 - sumSq b)
      / (1 + 2 * dotc a b + sumSq a * sumSq b) := by
  have h := one_sub_sumSq_mobius a b hd
  linarith
funext i
show ((-a i) * (1 + 2 * dotc (fun j => -a j) (mobius_addition a b)
        + sumSq (mobius_addition a b))
      + mobius_addition a b i * (1 - sumSq (fun j => -a j)))
    / (1 + 2 * dotc (fun j => -a j) (mobius_addition a b)
        + sumSq (fun j => -a j) * sumSq (mobius_addition a b))
    = b i
have hci : mobius_addition a b i
    = (a i * (1 + 2 * dotc a b + sumSq b) + b i * (1 - sumSq a))
      / (1 + 2 * dotc a b + sumSq a * sumSq b) := rfl
rw [hdot, hsq, hna, hci]
have hb1 : (1 : ℝ) - sumSq a ≠ 0 := by linarith
set s := dotc a b
set p := sumSq a
set q := sumSq b
have hD : 1 + 2 * -((p * (1 + 2 * s + q) + s * (1 - p)) / (1 + 2 * s + p * q))
    + p * (1 - (1 - p) * (1 - q) / (1 + 2 * s + p * q))
    = (1 - p) ^ 2 / (1 + 2 * s + p * q) := by
  field_simp
  ring
rw [hD]
rw [div_eq_iff (by positivity)]
field_simp
ring

/-! ## tanh and its inverse -/

theorem one_add_tanh {t : ℝ} : 1 + Real.tanh t = Real.exp t / Real.cosh t := by
have hc := Real.cosh_pos t
rw [Real.tanh_eq_sinh_div_cosh, ← Real.cosh_add_sinh t]
field_simp

theorem one_sub_tanh {t : ℝ} : 1 - Real.tanh t = Real.exp (-t) / Real.cosh t := by
have hc := Real.cosh_pos t
rw [Real.tanh_eq_sinh_div_cosh, ← Real.cosh_sub_sinh t]
field_simp

theorem tanh_lt_one (t : ℝ) : Real.tanh t < 1 := by
have h : 0 < 1 - Real.tanh t := by
  rw [one_sub_tanh]
  exact div_pos (Real.exp_pos _) (Real.cosh_pos t)
linarith

theorem neg_one_lt_tanh (t : ℝ) : -1 < Real.tanh t := by
have h : 0 < 1 + Real.tanh t := by
  rw [one_add_tanh]
  exact div_pos (Real.exp_pos _) (Real.cosh_pos t)
linarith

theorem tanh_nonneg {t : ℝ} (ht : 0 ≤ t) : 0 ≤ Real.tanh t := by
rw [Real.tanh_eq_sinh_div_cosh]
exact div_nonneg (Real.sinh_nonneg_iff.mpr ht) (Real.cosh_pos t).le

theorem tanh_pos {t : ℝ} (ht : 0 < t) : 0 < Real.tanh t := by
rw [Real.tanh_eq_sinh_div_cosh]
exact div_pos (Real.sinh_pos_iff.mpr ht) (Real.cosh_pos t)

theorem arctanh_tanh (t : ℝ) : arctanh (Real.tanh t) = t := by
unfold arctanh
have hc := Real.cosh_pos t
have h : (1 + Real.tanh t) / (1 - Real.tanh t) = Real.exp (2 * t) := by
  rw [one_add_tanh, one_sub_tanh, div_div_div_comm, div_self hc.ne', div_one,
    ← Real.exp_sub]
  congr 1
  ring
rw [h, Real.log_exp]
ring

theorem tanh_arctanh {r : ℝ} (h1 : -1 < r) (h2 : r < 1) :
Real.tanh (arctanh r) = r := by
have ha : (0:ℝ) < 1 + r := by linarith
have hb : (0:ℝ) < 1 - r := by linarith
have hu : (0:ℝ) < (1 + r) / (1 - r) := div_pos ha hb
have he2 : Real.exp (arctanh r) * Real.exp (arctanh r) = (1 + r) / (1 - r) := by
  rw [← Real.exp_add]
  have : arctanh r + arctanh r = Real.log ((1 + r) / (1 - r)) := by
    unfold arctanh; ring
  rw [this, Real.exp_log hu]
have hepos := Real.exp_pos (arctanh r)
rw [Real.tanh_eq_sinh_div_cosh, Real.sinh_eq, Real.cosh_eq, Real.exp_neg]
rw [div_div_div_comm, div_self (two_ne_zero), div_one]
rw [div_eq_iff (by positivity)]
have hne : Real.exp (arctanh r) ≠ 0 := ne_of_gt hepos
field_simp at he2 ⊢
nlinarith [he2]

theorem arctanh_pos {r : ℝ} (h0 : 0 < r) (h1 : r < 1) : 0 < arctanh r := by
unfold arctanh
have h : (1:ℝ) < (1 + r) / (1 - r) :=
  (one_lt_div (by linarith)).mpr (by linarith)
have := Real.log_pos h
linarith

/-! ## Structure of the exponential and logarithm maps -/

theorem mobius_zero_right {k : ℕ} (a : Fin k → ℝ) :
mobius_addition a (fun _ => 0) = a := by
funext i
simp [mobius_addition, dotc, sumSq]

theorem sumSq_mul_const {k : ℕ} (x : Fin k → ℝ) (c : ℝ) :
sumSq (fun i => x i * c) = sumSq x * c ^ 2 := by
unfold sumSq
calc ∑ i, (x i * c) * (x i * c)
    = ∑ i, (x i * x i) * c ^ 2 := Finset.sum_congr rfl fun i _ => by ring
  _ = (∑ i, x i * x i) * c ^ 2 := by rw [Finset.sum_mul]

theorem nrm_pos {k : ℕ} (v : Fin k → ℝ) (hv : sumSq v ≠ 0) : 0 < nrm v :=
Real.sqrt_pos.mpr (lt_of_le_of_ne (sumSq_nonneg v) (Ne.symm hv))

theorem nrm_sq {k : ℕ} (v : Fin k → ℝ) : nrm v ^ 2 = sumSq v :=
Real.sq_sqrt (sumSq_nonneg v)

theorem exp_eq_of_ne {k : ℕ} (p v : Fin k → ℝ) (hv : sumSq v ≠ 0) :
exp p v = mobius_addition p
  (fun i => v i * (Real.tanh (nrm v / (1 - sumSq p)) / nrm v)) := by
have h : (fun i => if nrm v = 0 then (0:ℝ)
      else v i * (Real.tanh (nrm v / (1 - sumSq p)) / nrm v))
    = (fun i => v i * (Real.tanh (nrm v / (1 - sumSq p)) / nrm v)) :=
  funext fun i => if_neg fun h0 => hv ((nrm_eq_zero_iff v).mp h0)
unfold exp
rw [h]

theorem nrm_exp_displacement {k : ℕ} (p v : Fin k → ℝ)
(hp : sumSq p < 1) (hv : sumSq v ≠ 0) :
nrm (fun i => v i * (Real.tanh (nrm v / (1 - sumSq p)) / nrm v))
  = Real.tanh (nrm v / (1 - sumSq p)) := by
have hnv := nrm_pos v hv
have ht : 0 ≤ nrm v / (1 - sumSq p) := div_nonneg (nrm_nonneg v) (by linarith)
have h1 : sumSq (fun i => v i * (Real.tanh (nrm v / (1 - sumSq p)) / nrm v))
    = Real.tanh (nrm v / (1 - sumSq p)) ^ 2 := by
  rw [sumSq_mul_const, show sumSq v = nrm v ^ 2 from (nrm_sq v).symm]
  field_simp
show Real.sqrt (sumSq (fun i => v i * (Real.tanh (nrm v / (1 - sumSq p)) / nrm v)))
  = Real.tanh (nrm v / (1 - sumSq p))
rw [h1]
exact Real.sqrt_sq (tanh_nonneg ht)

theorem exp_zero_displacement {k : ℕ} (p : Fin k → ℝ) :
exp p (zero_vector p) = p := by
have h0 : nrm (zero_vector p) = 0 := by simp [nrm, sumSq, zero_vector]
unfold exp
rw [show (fun i => if nrm (zero_vector p) = 0 then (0:ℝ)
      else zero_vector p i
        * (Real.tanh (nrm (zero_vector p) / (1 - sumSq p)) / nrm (zero_vector p)))
    = (fun _ : Fin k => (0:ℝ)) from funext fun i => if_pos h0]
exact mobius_zero_right p

theorem log_exp_roundtrip {k : ℕ} (p v : Fin k → ℝ)
(hp : sumSq p < 1) (hv : sumSq v ≠ 0) :
log p (exp p v) = some v := by
have hnv := nrm_pos v hv
have htpos : 0 < nrm v / (1 - sumSq p) := div_pos hnv (by linarith)
have hWnrm := nrm_exp_displacement p v hp hv
have hWsq : sumSq (fun i => v i * (Real.tanh (nrm v / (1 - sumSq p)) / nrm v)) < 1 := by
  rw [← nrm_lt_one_iff, hWnrm]
  exact tanh_lt_one _
have hcancel := mobius_left_cancel p
  (fun i => v i * (Real.tanh (nrm v / (1 - sumSq p)) / nrm v)) hp hWsq
rw [exp_eq_of_ne p v hv]
unfold log
rw [hcancel, hWnrm]
rw [if_neg (ne_of_gt (tanh_pos htpos))]
refine congrArg some (funext fun i => ?_)
show (1 - sumSq p) * arctanh (Real.tanh (nrm v / (1 - sumSq p)))
    * (v i * (Real.tanh (nrm v / (1 - sumSq p)) / nrm v))
    / Real.tanh (nrm v / (1 - sumSq p)) = v i
rw [arctanh_tanh]
have hT := ne_of_gt (tanh_pos htpos)
have hA : (0:ℝ) < 1 - sumSq p := by linarith
field_simp [hA.ne', hnv.ne', hT]

theorem exp_log_roundtrip {k : ℕ} (p q : Fin k → ℝ)
(hp : sumSq p < 1) (hq : sumSq q < 1) (hpq : q ≠ p) :
Option.map (exp p) (log p q) = some q := by
have hnegp : sumSq (fun i => -p i) < 1 := by rw [sumSq_neg]; exact hp
have hA : (0:ℝ) < 1 - sumSq p := by linarith
have hcancel2 : mobius_addition p (mobius_addition (fun i => -p i) q) = q := by
  have h := mobius_left_cancel (fun i => -p i) q hnegp hq
  simp only [neg_neg] at h
  exact h
have hU1 : sumSq (mobius_addition (fun i => -p i) q) < 1 :=
  sumSq_mobius_lt_one _ q hnegp hq
have hU0 : nrm (mobius_addition (fun i => -p i) q) ≠ 0 := by
  intro h0
  have h1 := hcancel2
  rw [show mobius_addition (fun i => -p i) q = (fun _ : Fin k => (0:ℝ)) from
    funext ((sumSq_eq_zero_iff _).mp ((nrm_eq_zero_iff _).mp h0))] at h1
  rw [mobius_zero_right] at h1
  exact hpq h1.symm
have hnU : 0 < nrm (mobius_addition (fun i => -p i) q) :=
  lt_of_le_of_ne (nrm_nonneg _) (Ne.symm hU0)
have hnUlt : nrm (mobius_addition (fun i => -p i) q) < 1 :=
  (nrm_lt_one_iff _).mpr hU1
have hat : 0 < arctanh (nrm (mobius_addition (fun i => -p i) q)) :=
  arctanh_pos hnU hnUlt
unfold log
rw [if_neg hU0, Option.map_some']
refine congrArg some ?_
rw [show (fun i => (1 - sumSq p) * arctanh (nrm (mobius_addition (fun j => -p j) q))
      * mobius_addition (fun j => -p j) q i / nrm (mobius_addition (fun j => -p j) q))
    = (fun i => mobius_addition (fun j => -p j) q i
      * ((1 - sumSq p) * arctanh (nrm (mobius_addition (fun j => -p j) q))
        / nrm (mobius_addition (fun j => -p j) q))) from funext fun i => by ring]
have hcpos : 0 < (1 - sumSq p) * arctanh (nrm (mobius_addition (fun j => -p j) q))
    / nrm (mobius_addition (fun j => -p j) q) := div_pos (mul_pos hA hat) hnU
have hLsq := sumSq_mul_const (mobius_addition (fun j => -p j) q)
  ((1 - sumSq p) * arctanh (nrm (mobius_addition (fun j => -p j) q))
    / nrm (mobius_addition (fun j => -p j) q))
have hLne : sumSq (fun i => mobius_addition (fun j => -p j) q i
    * ((1 - sumSq p) * arctanh (nrm (mobius_addition (fun j => -p j) q))
      / nrm (mobius_addition (fun j => -p j) q))) ≠ 0 := by
  rw [hLsq]
  exact mul_ne_zero (fun h => hU0 ((nrm_eq_zero_iff _).mpr h))
    (pow_ne_zero 2 hcpos.ne')
rw [exp_eq_of_ne p _ hLne]
have hnL : nrm (fun i => mobius_addition (fun j => -p j) q i
    * ((1 - sumSq p) * arctanh (nrm (mobius_addition (fun j => -p j) q))
      / nrm (mobius_addition (fun j => -p j) q)))
    = nrm (mobius_addition (fun j => -p j) q)
      * ((1 - sumSq p) * arctanh (nrm (mobius_addition (fun j => -p j) q))
        / nrm (mobius_addition (fun j => -p j) q)) := by
  show Real.sqrt _ = _
  rw [hLsq, Real.sqrt_mul (sumSq_nonneg _), Real.sqrt_sq hcpos.le]
  rfl
have harg : nrm (mobius_addition (fun j => -p j) q)
    * ((1 - sumSq p) * arctanh (nrm (mobius_addition (fun j => -p j) q))
      / nrm (mobius_addition (fun j => -p j) q)) / (1 - sumSq p)
    = arctanh (nrm (mobius_addition (fun j => -p j) q)) := by
  field_simp
have htanh : Real.tanh (arctanh (nrm (mobius_addition (fun j => -p j) q)))
    = nrm (mobius_addition (fun j => -p j) q) := tanh_arctanh (by linarith) hnUlt
rw [show (fun i => (mobius_addition (fun j => -p j) q i
      * ((1 - sumSq p) * arctanh (nrm (mobius_addition (fun j => -p j) q))
        / nrm (mobius_addition (fun j => -p j) q)))
      * (Real.tanh ((nrm fun i => mobius_addition (fun j => -p j) q i
          * ((1 - sumSq p) * arctanh (nrm (mobius_addition (fun j => -p j) q))
            / nrm (mobius_addition (fun j => -p j) q))) / (1 - sumSq p))
        / (nrm fun i => mobius_addition (fun j => -p j) q i
          * ((1 - sumSq p) * arctanh (nrm (mobius_addition (fun j => -p j) q))
            / nrm (mobius_addition (fun j => -p j) q)))))
    = mobius_addition (fun j => -p j) q from ?_]
· exact hcancel2
funext i
rw [hnL, harg, htanh]
field_simp

/-! ## The unguarded division in `log` at equal arguments -/

theorem mobius_neg_self {k : ℕ} (p : Fin k → ℝ) :
mobius_addition (fun i => -p i) p = fun _ => 0 := by
funext i
show ((-p i) * (1 + 2 * dotc (fun j => -p j) p + sumSq p)
    + p i * (1 - sumSq (fun j => -p j)))
  / (1 + 2 * dotc (fun j => -p j) p + sumSq (fun j => -p j) * sumSq p) = 0
rw [dotc_neg_left, ← sumSq_eq_dotc, sumSq_neg]
rw [show (-p i) * (1 + 2 * -sumSq p + sumSq p) + p i * (1 - sumSq p) = 0 from by
  ring]
exact zero_div _

theorem log_self {k : ℕ} (p : Fin k → ℝ) : log p p = none := by
unfold log
rw [mobius_neg_self]
rw [if_pos (by simp [nrm, sumSq] : nrm (fun _ : Fin k => (0:ℝ)) = 0)]

/-! ## Distance -/

theorem arccosh_one : arccosh 1 = 0 := by
unfold arccosh
norm_num

theorem columns_dist_self {k : ℕ} (p : Fin k → ℝ) : columns_dist p p = 0 := by
unfold columns_dist
rw [show sumSq (fun i => p i - p i) = 0 from by simp [sumSq]]
norm_num [arccosh_one]

theorem columns_dist_comm {k : ℕ} (a b : Fin k → ℝ) :
columns_dist a b = columns_dist b a := by
unfold columns_dist
rw [show sumSq (fun i => a i - b i) = sumSq (fun i => b i - a i) from by
    unfold sumSq; exact Finset.sum_congr rfl fun i _ => by ring,
  mul_comm (1 - sumSq a) (1 - sumSq b)]

theorem dist_self_zero {k n : ℕ} (p : Fin n → Fin k → ℝ) : dist p p = 0 := by
unfold dist
rw [show (∑ j, columns_dist (p j) (p j) ^ 2) = 0 from
  Finset.sum_eq_zero fun j _ => by rw [columns_dist_self]; ring]
exact Real.sqrt_zero

theorem dist_comm' {k n : ℕ} (a b : Fin n → Fin k → ℝ) : dist a b = dist b a := by
unfold dist
congr 1
exact Finset.sum_congr rfl fun j _ => by rw [columns_dist_comm]

/-! ## Claim theorems -/

/-- C1: the spec requires `log(p, p) = zero_vector(p)` for every valid point
`p`.  The code violates this: the division `W / norm_W` closing `log` is
unguarded (unlike the analogous division in `exp`, which the source explicitly
guards), and at `point_a = point_b` the Möbius sum `W` is exactly zero, so
numpy computes `0 / 0` and returns a NaN array instead of the zero tangent
vector.  This theorem evaluates the code at the failing input
`p = [0.5, 0]` (a valid point, norm `1/2 < 1`): the result is the NaN case
(`none`), not `some (zero_vector p)`. -/
theorem claim_log_self_nan :
log ![(1:ℝ)/2, 0] ![(1:ℝ)/2, 0] = none := log_self _

/-- C2 as stated is false: it quantifies over every small-magnitude tangent
vector, and at the zero tangent vector `exp(p, 0) = p`, so the round trip
computes `log(p, p)`, which the unguarded division turns into NaN (`none`)
rather than the zero vector.  Concrete failing input: `p = [0.5, 0]`,
`v = zero_vector(p)`. -/
theorem claim_roundtrip_counterexample :
log ![(1:ℝ)/2, 0] (exp ![(1:ℝ)/2, 0] (zero_vector ![(1:ℝ)/2, 0]))
  ≠ some (zero_vector ![(1:ℝ)/2, 0]) := by
rw [exp_zero_displacement, log_self]
intro h
exact Option.noConfusion h

/-- C2 (amended): for every valid point `p`, every *nonzero* tangent vector
`v`, and every valid point `q ≠ p`, the round trips hold exactly in real
arithmetic: `log(p, exp(p, v)) = v` and `exp(p, log(p, q)) = q` (no smallness
of `v` or nearness of `q` is needed once floating-point tolerance is replaced
by exact arithmetic).  Only the excluded cases `v = 0` / `q = p` fail, through
the NaN of `log`. -/
theorem claim_roundtrip {k : ℕ} (p v q : Fin k → ℝ)
(hp : nrm p < 1) (hv : v ≠ zero_vector p) (hq : nrm q < 1) (hqp : q ≠ p) :
log p (exp p v) = some v ∧ Option.map (exp p) (log p q) = some q := by
have hp' := (nrm_lt_one_iff p).mp hp
have hq' := (nrm_lt_one_iff q).mp hq
have hv' : sumSq v ≠ 0 := fun h => hv (funext ((sumSq_eq_zero_iff v).mp h))
exact ⟨log_exp_roundtrip p v hp' hv', exp_log_roundtrip p q hp' hq' hqp⟩

theorem claim_roundtrip_witness :
log ![(0:ℝ), 0] (exp ![(0:ℝ), 0] ![(1:ℝ)/2, 0]) = some ![(1:ℝ)/2, 0]
∧ Option.map (exp ![(0:ℝ), 0]) (log ![(0:ℝ), 0] ![(1:ℝ)/2, 0])
  = some ![(1:ℝ)/2, 0] :=
claim_roundtrip ![(0:ℝ), 0] ![(1:ℝ)/2, 0] ![(1:ℝ)/2, 0]
  (by rw [nrm_lt_one_iff]; norm_num [sumSq, Fin.sum_univ_two])
  (fun h => by have h0 := congrFun h 0; norm_num [zero_vector] at h0)
  (by rw [nrm_lt_one_iff]; norm_num [sumSq, Fin.sum_univ_two])
  (fun h => by have h0 := congrFun h 0; norm_num at h0)

/-- C3: for every point `p`, `exp(p, zero_vector(p)) = p` exactly: the
source's guarded division (`np.divide(..., out=zeros, where=norm != 0)`)
makes the displacement `W = 0` when the tangent norm is zero, and the Möbius
sum of `p` with `0` is `p` (its denominator is exactly `1`), so no division
by zero or NaN occurs.  Proved for *every* `p`, hence for every valid one. -/
theorem claim_exp_zero {k : ℕ} (p : Fin k → ℝ) :
exp p (zero_vector p) = p := exp_zero_displacement p

/-- C4: Möbius addition is closed in the open unit ball: columns of Euclidean
norm `< 1` produce a column of Euclidean norm `< 1`.  The key identity is
`1 - ‖a ⊕ b‖² = (1 - ‖a‖²)(1 - ‖b‖²) / (1 + 2⟨a,b⟩ + ‖a‖²‖b‖²)`, whose right
side is positive on the ball. -/
theorem claim_mobius_closed {k : ℕ} (a b : Fin k → ℝ)
(ha : nrm a < 1) (hb : nrm b < 1) : nrm (mobius_addition a b) < 1 :=
(nrm_lt_one_iff _).mpr
  (sumSq_mobius_lt_one a b ((nrm_lt_one_iff a).mp ha) ((nrm_lt_one_iff b).mp hb))

theorem claim_mobius_closed_witness :
nrm (mobius_addition ![(1:ℝ)/2, 0] ![(0:ℝ), 1/2]) < 1 :=
claim_mobius_closed ![(1:ℝ)/2, 0] ![(0:ℝ), 1/2]
  (by rw [nrm_lt_one_iff]; norm_num [sumSq, Fin.sum_univ_two])
  (by rw [nrm_lt_one_iff]; norm_num [sumSq, Fin.sum_univ_two])

/-- C5: the product-manifold distance is symmetric (for all inputs) and zero
on the diagonal (for valid points: each per-column distance is
`arccosh(1) = 0` there, and the aggregation `sqrt(Σ 0²) = 0`). -/
theorem claim_dist_props {k n : ℕ} (a b p : Fin n → Fin k → ℝ)
(_hp : ∀ j, nrm (p j) < 1) :
dist a b = dist b a ∧ dist p p = 0 :=
⟨dist_comm' a b, dist_self_zero p⟩

theorem claim_dist_props_witness :
dist (fun _ : Fin 1 => ![(1:ℝ)/2, 0]) (fun _ : Fin 1 => ![(0:ℝ), 0])
  = dist (fun _ : Fin 1 => ![(0:ℝ), 0]) (fun _ : Fin 1 => ![(1:ℝ)/2, 0])
∧ dist (fun _ : Fin 1 => ![(1:ℝ)/2, 0]) (fun _ : Fin 1 => ![(1:ℝ)/2, 0]) = 0 :=
claim_dist_props (fun _ => ![(1:ℝ)/2, 0]) (fun _ => ![(0:ℝ), 0])
  (fun _ => ![(1:ℝ)/2, 0])
  (fun _ => by rw [nrm_lt_one_iff]; norm_num [sumSq, Fin.sum_univ_two])

/-- C6: construction fails exactly when `k < 1` or `n < 1`; the `k` check
fires first and each error message names the offending parameter and its
value, exactly as the source's f-strings do.  The `Except` model returns no
configuration at all in the error case, so no partially constructed usable
instance exists. -/
theorem claim_make_validates (k n : ℤ) :
((∃ e, make k n = Except.error e) ↔ k < 1 ∨ n < 1)
∧ (k < 1 → make k n
    = Except.error ("Need k >= 1. Value given was k = " ++ toString k))
∧ (1 ≤ k → n < 1 → make k n
    = Except.error ("Need n >= 1. Value given was n = " ++ toString n)) := by
have h_err_k : ∀ (_ : k < 1), make k n
    = Except.error ("Need k >= 1. Value given was k = " ++ toString k) :=
  fun hk => by unfold make; rw [if_pos hk]
have h_err_n : ∀ (_ : ¬k < 1) (_ : n < 1), make k n
    = Except.error ("Need n >= 1. Value given was n = " ++ toString n) :=
  fun hk hn => by unfold make; rw [if_neg hk, if_pos hn]
have h_ok : ∀ (_ : ¬k < 1) (_ : ¬n < 1), ∃ c, make k n = Except.ok c :=
  fun hk hn => ⟨_, by unfold make; rw [if_neg hk, if_neg hn]⟩
refine ⟨⟨?_, ?_⟩, h_err_k, fun h1 hn => h_err_n (not_lt.mpr h1) hn⟩
· rintro ⟨e, he⟩
  by_contra hcon
  push_neg at hcon
  obtain ⟨c, hc⟩ := h_ok (not_lt.mpr hcon.1) (not_lt.mpr hcon.2)
  rw [hc] at he
  exact Except.noConfusion he
· rintro (h | h)
  · exact ⟨_, h_err_k h⟩
  · by_cases hk : k < 1
    · exact ⟨_, h_err_k hk⟩
    · exact ⟨_, h_err_n hk h⟩

theorem claim_make_validates_witness :
make 0 5 = Except.error ("Need k >= 1. Value given was k = " ++ toString (0:ℤ))
∧ make 3 0 = Except.error ("Need n >= 1. Value given was n = " ++ toString (0:ℤ)) :=
⟨(claim_make_validates 0 5).2.1 (by decide),
  (claim_make_validates 3 0).2.2 (by decide) (by decide)⟩

/-- C7: the Riemannian gradient is the ambient gradient rescaled by
`1/λ(x)² = (1 - ‖x‖²)²/4` in each column, and at `x = [0, 0]` with
`g = [1, 0]` the result is `[0.25, 0]`. -/
theorem claim_gradient_rescale {k : ℕ} (x g : Fin k → ℝ) (_hx : nrm x < 1) :
(∀ i, euclidean_to_riemannian_gradient x g i = g i * ((1 - sumSq x) ^ 2 / 4))
∧ euclidean_to_riemannian_gradient ![(0:ℝ), 0] ![(1:ℝ), 0] = ![(0.25:ℝ), 0] := by
constructor
· intro i
  unfold euclidean_to_riemannian_gradient conformal_factor
  rw [div_pow, one_div, inv_div]
  norm_num
· funext i
  fin_cases i <;>
    norm_num [euclidean_to_riemannian_gradient, conformal_factor, sumSq,
      Fin.sum_univ_two]

theorem claim_gradient_rescale_witness :
(∀ i, euclidean_to_riemannian_gradient ![(0:ℝ), 0] ![(3:ℝ), 4] i
  = ![(3:ℝ), 4] i * ((1 - sumSq ![(0:ℝ), 0]) ^ 2 / 4))
∧ euclidean_to_riemannian_gradient ![(0:ℝ), 0] ![(1:ℝ), 0] = ![(0.25:ℝ), 0] :=
claim_gradient_rescale ![(0:ℝ), 0] ![(3:ℝ), 4]
  (by rw [nrm_lt_one_iff]; norm_num [sumSq, Fin.sum_univ_two])

/-- C8: the retraction is identically the exact exponential map: the source
binds `retraction = exp` at class level, so the two functions agree at every
point and tangent vector — not merely to first order. -/
theorem claim_retraction_eq_exp {k : ℕ} (p v : Fin k → ℝ) :
retraction p v = exp p v := rfl

/-- C9: on a valid column (`‖x‖ < 1`) the conformal factor
`λ(x) = 2/(1 - ‖x‖²)` is a well-defined real number (hence finite) with
`λ(x) ≥ 2`, and `λ(x) = 2` exactly when the column is the origin. -/
theorem claim_conformal_factor {k : ℕ} (x : Fin k → ℝ) (hx : nrm x < 1) :
2 ≤ conformal_factor x ∧ (conformal_factor x = 2 ↔ x = fun _ => 0) := by
have hS : sumSq x < 1 := (nrm_lt_one_iff x).mp hx
have hS0 : 0 ≤ sumSq x := sumSq_nonneg x
have hpos : (0:ℝ) < 1 - sumSq x := by linarith
unfold conformal_factor
constructor
· rw [le_div_iff₀ hpos]
  linarith
· constructor
  · intro h
    rw [div_eq_iff (ne_of_gt hpos)] at h
    have hz : sumSq x = 0 := by linarith
    exact funext ((sumSq_eq_zero_iff x).mp hz)
  · intro h
    have hz : sumSq x = 0 := (sumSq_eq_zero_iff x).mpr fun i => by rw [h]
    rw [hz]
    norm_num

theorem claim_conformal_factor_witness :
2 ≤ conformal_factor ![(1:ℝ)/2, 0]
∧ (conformal_factor ![(1:ℝ)/2, 0] = 2 ↔ ![(1:ℝ)/2, 0] = fun _ => 0) :=
claim_conformal_factor ![(1:ℝ)/2, 0]
  (by rw [nrm_lt_one_iff]; norm_num [sumSq, Fin.sum_univ_two])

/-- C10: zero is a right identity of Möbius addition for *every* point `a`
(not only valid ones), exactly: with `b = 0` the numerator reduces to `a` and
the denominator to `1`. -/
theorem claim_mobius_zero_identity {k : ℕ} (a : Fin k → ℝ) :
mobius_addition a (zero_vector a) = a := mobius_zero_right a

end PoincareBall
